import Mathlib

/-!
Shallow embedding of the go-verlib semantic-version library.

The definitions below are translated from the Go sources:
`version.go` (the Version value type, its accessors, comparisons and
increment operations), `constraint.go` (operators, constraints,
satisfaction and overlap), `contradiction.go` (pairwise and set-wide
contradiction detection) and `parser.go` (the lenient and strict
version grammars).

Modelling conventions:
* Go `uint64` values are modelled as `Nat`; the worked increments use
  arithmetic modulo `2 ^ 64` (`u64succ`) because Go's `x++` wraps.
* Go's optional `*uint64` fields `minor` and `patch` are modelled as
  `Option Nat` holding the pointed-to value.  Pointer identity and the
  deep-copy behaviour of `clone` are modelled separately by a
  heap-level embedding (`Store`/`VersionH` below) used for the
  immutability claim.
* Fallible Go functions returning `(T, error)` are modelled as
  `Option T` (`none` is the error case).
* `errors.Join` in `Contradicts` returns a non-nil error exactly when
  at least one `ContradictionErr` was joined, and the joined error
  exposes the list of its components; `Contradicts` is therefore
  modelled as returning the list of `ContradictionErr` values, empty
  exactly when the Go function returns `nil`.
-/

namespace Verlib

/-- Modulus of Go's unsigned 64-bit integers. -/
def u64Mod : Nat := 2 ^ 64

/-- Successor modulo `2 ^ 64`, modelling Go's `x + 1` / `x++` on a `uint64`. -/
def u64succ (x : Nat) : Nat := (x + 1) % u64Mod

/-- The `Version` struct of `version.go`: major component plus optional
minor and patch components (nil pointers modelled as `none`) and the
pre-release and build-metadata strings (absent = empty). -/
structure Version where
  major : Nat
  minor : Option Nat
  patch : Option Nat
  preRelease : String
  buildMetadata : String
deriving DecidableEq

/-- `NewVersion` from `version.go`: minor and patch are set (present). -/
def NewVersion (major minor patch : Nat) : Version :=
  ⟨major, some minor, some patch, "", ""⟩

/-- `NewPreReleaseVersion` from `version.go`. -/
def NewPreReleaseVersion (major minor patch : Nat) (preRelease : String) : Version :=
  ⟨major, some minor, some patch, preRelease, ""⟩

/-- Accessor `Version.Major`. -/
def Version.Major (v : Version) : Nat := v.major

/-- Accessor `Version.Minor`: 0 when the minor component is absent. -/
def Version.Minor (v : Version) : Nat := v.minor.getD 0

/-- Accessor `Version.Patch`: 0 when the patch component is absent. -/
def Version.Patch (v : Version) : Nat := v.patch.getD 0

/-- Accessor `Version.PreRelease`. -/
def Version.PreRelease (v : Version) : String := v.preRelease

/-- Accessor `Version.BuildMetadata`. -/
def Version.BuildMetadata (v : Version) : String := v.buildMetadata

/-- `Version.clone` deep-copies a version.  At the value level the copy is
indistinguishable from the original; the aliasing aspect (fresh cells for
the optional components) is modelled by `cloneH` in the heap-level
embedding below. -/
def Version.clone (v : Version) : Version :=
  ⟨v.major, v.minor, v.patch, v.preRelease, v.buildMetadata⟩

/-- `Version.SetPreRelease`: clone, then replace the pre-release label. -/
def Version.SetPreRelease (v : Version) (preRelease : String) : Version :=
  { v.clone with preRelease := preRelease }

/-- `Version.SetBuildMetadata`: clone, then replace the build metadata. -/
def Version.SetBuildMetadata (v : Version) (buildMetadata : String) : Version :=
  { v.clone with buildMetadata := buildMetadata }

/-- Go's `<` on strings: lexicographic byte comparison, which on valid
UTF-8 agrees with lexicographic comparison of the code points. -/
def goStrLtChars : List Char → List Char → Bool
  | [], [] => false
  | [], _ :: _ => true
  | _ :: _, [] => false
  | a :: as, b :: bs =>
    if a.toNat < b.toNat then true
    else if b.toNat < a.toNat then false
    else goStrLtChars as bs

/-- Go's `<` on strings, lifted to `String`. -/
def goStrLt (a b : String) : Bool := goStrLtChars a.data b.data

/-- `Version.Less` from `version.go`: lexicographic on
(major, minor-as-0, patch-as-0); on a tie an empty pre-release is
greater than a non-empty one, and two non-empty pre-releases compare by
plain string order. -/
def Version.Less (v other : Version) : Bool :=
  if v.Major ≠ other.Major then decide (v.Major < other.Major)
  else if v.Minor ≠ other.Minor then decide (v.Minor < other.Minor)
  else if v.Patch ≠ other.Patch then decide (v.Patch < other.Patch)
  else if v.preRelease = "" ∧ other.preRelease ≠ "" then false
  else if v.preRelease ≠ "" ∧ other.preRelease = "" then true
  else goStrLt v.preRelease other.preRelease

/-- `Version.Greater`, derived from `Less` exactly as in the source. -/
def Version.Greater (v other : Version) : Bool :=
  other.Less v && !(v.Less other)

/-- `Version.Equal`, derived from `Less` exactly as in the source. -/
def Version.Equal (v other : Version) : Bool :=
  !(v.Less other) && !(other.Less v)

/-- `Version.GreaterEqual`, derived from `Less` exactly as in the source. -/
def Version.GreaterEqual (v other : Version) : Bool :=
  !(v.Less other)

/-- `Version.LessEqual`, derived from `Greater` exactly as in the source. -/
def Version.LessEqual (v other : Version) : Bool :=
  !(v.Greater other)

/-- `Version.Increment`: bump the rightmost present component and clear
pre-release and build metadata. -/
def Version.Increment (v : Version) : Version :=
  let newVersion := { v.clone with preRelease := "", buildMetadata := "" }
  match v.patch with
  | some p => { newVersion with patch := some (u64succ p) }
  | none =>
    match v.minor with
    | some m => { newVersion with minor := some (u64succ m) }
    | none => { newVersion with major := u64succ newVersion.major }

/-- `Version.IncrementMajor`: major + 1, minor and patch present and zero,
pre-release and build metadata cleared. -/
def Version.IncrementMajor (v : Version) : Version :=
  ⟨u64succ v.major, some 0, some 0, "", ""⟩

/-- `Version.IncrementMinor`: backfill an absent minor with zero, then
increment it; patch becomes present and zero. -/
def Version.IncrementMinor (v : Version) : Version :=
  { v.clone with
      preRelease := "", buildMetadata := "",
      patch := some 0,
      minor := some (u64succ (v.minor.getD 0)) }

/-- `Version.IncrementPatch`: backfill absent minor and patch with zero,
then increment the patch. -/
def Version.IncrementPatch (v : Version) : Version :=
  { v.clone with
      preRelease := "", buildMetadata := "",
      minor := some (v.minor.getD 0),
      patch := some (u64succ (v.patch.getD 0)) }

/-- `Version.IncrementPessimistic`: with a patch present, zero the patch
and increment the minor (the Go code dereferences the minor pointer
unguarded here, so an absent minor with a present patch would fault;
`Option.map` leaves the minor absent in that unreachable case); with
only a minor present, replace it by a fresh zero and bump the major;
otherwise just bump the major. -/
def Version.IncrementPessimistic (v : Version) : Version :=
  let newVersion := { v.clone with preRelease := "", buildMetadata := "" }
  match newVersion.patch with
  | some _ => { newVersion with patch := some 0, minor := newVersion.minor.map u64succ }
  | none =>
    match newVersion.minor with
    | some _ => { newVersion with minor := some 0, major := u64succ newVersion.major }
    | none => { newVersion with major := u64succ newVersion.major }

/-- The `Operator` enumeration of `constraint.go` (`=`, `!=`, `>`, `>=`,
`<`, `<=`, `~>`). -/
inductive Operator where
  | EQ
  | NE
  | GT
  | GE
  | LT
  | LE
  | GEPessimistic
deriving DecidableEq

/-- The `Constraint` struct of `constraint.go`. -/
structure Constraint where
  operator : Operator
  version : Version
deriving DecidableEq

/-- `NewConstraint` from `constraint.go`. -/
def NewConstraint (operator : Operator) (version : Version) : Constraint :=
  ⟨operator, version⟩

/-- A `Constraints` value is a list of constraints. -/
abbrev Constraints := List Constraint

/-- `Version.Satisfies` from `constraint.go`: dispatch on the constraint
operator.  (The Go `default: return false` arm is unreachable because
`Operator` is closed.) -/
def Version.Satisfies (v : Version) (c : Constraint) : Bool :=
  match c.operator with
  | .EQ => v.Equal c.version
  | .NE => !(v.Equal c.version)
  | .GT => v.Greater c.version
  | .GE => v.GreaterEqual c.version
  | .LT => v.Less c.version
  | .LE => v.LessEqual c.version
  | .GEPessimistic => v.GreaterEqual c.version && v.Less c.version.IncrementPessimistic

/-- `Constraint.Overlaps` from `constraint.go`: the hand-written case
table, with the cases tried in source order. -/
def Constraint.Overlaps (c c2 : Constraint) : Bool :=
  if c.operator = .EQ then c.version.Satisfies c2
  else if c.operator = .NE then !(c.version.Satisfies c2)
  else if c.operator = .GT then c.version.LessEqual c2.version
  else if c.operator = .GE ∧ c2.operator = .GEPessimistic then
    c.version.GreaterEqual c2.version && c.version.Less c2.version.Increment
  else if c2.operator = .GE ∧ c.operator = .GEPessimistic then
    c2.version.GreaterEqual c.version && c2.version.Less c.version.Increment
  else if c.operator = .GE then c.version.Less c2.version
  else if c.operator = .LT ∧ c2.operator = .LE then c2.version.Less c.version
  else if c.operator = .LE ∧ c2.operator = .LT then c.version.Less c2.version
  else if c.operator = .LT ∧ c2.operator = .GEPessimistic then
    c2.version.Less c.version || c2.version.Equal c.version
  else if c2.operator = .LT ∧ c.operator = .GEPessimistic then
    c.version.Less c2.version || c.version.Equal c2.version
  else if c.operator = .LT then c.version.GreaterEqual c2.version
  else if c.operator = .LE then c.version.Greater c2.version
  else if c.operator = .GEPessimistic then
    c2.version.GreaterEqual c.version && c2.version.Less c.version.Increment
  else false

/-- The `ContradictionErr` struct of `contradiction.go`, carrying the two
contradictory constraints. -/
structure ContradictionErr where
  c1 : Constraint
  c2 : Constraint
deriving DecidableEq

/-- `checkContradict` from `contradiction.go`: the case table, in source
order. -/
def checkContradict (c1 c2 : Constraint) : Bool :=
  if c1.operator = c2.operator ∧ c1.version.Equal c2.version = true then false
  else if c1.operator = .GT ∧ c2.operator = .GE ∧ c1.version.LessEqual c2.version = true then false
  else if c1.operator = .GE ∧ c2.operator = .GT ∧ c1.version.Greater c2.version = true then false
  else if c1.operator = .NE ∧ c2.operator = .NE then c1.version.Equal c2.version
  else if c1.operator = .NE then c1.version.Satisfies c2
  else if c2.operator = .NE then c2.version.Satisfies c1
  else !(c1.Overlaps c2)

/-- The nested index loops of `Constraints.Contradicts`: for each `i`, every
later `j` is paired with it, and the pair is kept when `checkContradict`
holds in at least one of the two argument orders. -/
def contraLoop : List Constraint → List ContradictionErr
  | [] => []
  | c1 :: rest =>
    ((rest.filter fun c2 => checkContradict c1 c2 || checkContradict c2 c1).map
      fun c2 => ⟨c1, c2⟩) ++ contraLoop rest

/-- `Constraints.Contradicts` from `contradiction.go`: flatten the receiver
and the additional sets in order, then collect every contradictory pair.
The Go function returns the `errors.Join` of the collected
`ContradictionErr` values, which is `nil` exactly when the list is
empty. -/
def Contradicts (c : Constraints) (additional : List Constraints) : List ContradictionErr :=
  contraLoop (c ++ additional.flatten)

/-- A decimal digit character. -/
def isDigitChar (c : Char) : Bool := c.isDigit

/-- Numeric value of a digit character. -/
def digitVal (c : Char) : Nat := c.toNat - 48

/-- Value of a most-significant-first decimal digit run. -/
def parseUintDigits (l : List Char) : Nat :=
  l.foldl (fun acc c => acc * 10 + digitVal c) 0

/-- `strconv.ParseUint(s, 10, 64)`: fails on an empty input, on a
non-digit character, and on overflow past `2 ^ 64 - 1`. -/
def parseUint (l : List Char) : Option Nat :=
  if l.isEmpty then none
  else if l.all isDigitChar then
    let n := parseUintDigits l
    if n < u64Mod then some n else none
  else none

/-- One optional `(\.\d+)?` group of the lenient `versionRegex`: the group
participates exactly when a dot followed by at least one digit is next,
and then captures the maximal digit run.  An outer `none` models a
`ParseUint` failure (overflow) inside a participating group. -/
def parseOptDotNum (l : List Char) : Option (Option Nat × List Char) :=
  match l with
  | '.' :: t =>
    let ds := t.takeWhile isDigitChar
    if ds.isEmpty then some (none, l)
    else
      match parseUint ds with
      | some n => some (some n, t.dropWhile isDigitChar)
      | none => none
  | _ => some (none, l)

/-- `ParseVersion`, the lenient grammar (`versionRegex` of `parser.go`):
anchored at the start of the text, it lazily skips non-digits, matches
the major digit run, the optional minor and patch groups, an optional
`-prerelease` (greedy, up to a `+` or newline), an optional `+build`
(greedy, up to a newline), and discards trailing garbage up to the end
of the text.  None of `\D`, `\d`, `[^+\n]`, `.` and `[^\n]` matches a
newline past the first digit, so the regex fails to match exactly when
the input has no digit at all or a newline occurs at or after the first
digit. -/
def ParseVersion (s : String) : Option Version :=
  let rest := s.data.dropWhile (fun c => !c.isDigit)
  if rest.isEmpty then none
  else if rest.any (fun c => c == '\n') then none
  else
    match parseUint (rest.takeWhile isDigitChar) with
    | none => none
    | some major =>
      match parseOptDotNum (rest.dropWhile isDigitChar) with
      | none => none
      | some (minor, r2) =>
        match parseOptDotNum r2 with
        | none => none
        | some (patch, r3) =>
          let preR :=
            match r3 with
            | '-' :: t => ((⟨t.takeWhile fun c => c != '+' && c != '\n'⟩ : String),
                           t.dropWhile fun c => c != '+' && c != '\n')
            | _ => (("" : String), r3)
          let buildMetadata : String :=
            match preR.2 with
            | '+' :: t => ⟨t.takeWhile fun c => c != '\n'⟩
            | _ => ""
          some ⟨major, minor, patch, preR.1, buildMetadata⟩

/-- A character allowed in strict pre-release and build identifiers:
`[0-9a-zA-Z-]`. -/
def isIdentChar (c : Char) : Bool := c.isAlphanum || c == '-'

/-- Split a character list at its dots (the dots are separators and are
dropped). -/
def splitOnDot : List Char → List (List Char)
  | [] => [[]]
  | '.' :: t => [] :: splitOnDot t
  | c :: t =>
    match splitOnDot t with
    | [] => [[c]]
    | h :: r => (c :: h) :: r

/-- A pre-release identifier of the strict grammar,
`0|[1-9]\d*|\d*[a-zA-Z-][0-9a-zA-Z-]*`: a non-empty run of identifier
characters which, when purely numeric, has no redundant leading zero. -/
def preReleaseIdentOk (ident : List Char) : Bool :=
  !ident.isEmpty && ident.all isIdentChar &&
    (!(ident.all isDigitChar) || ident.length == 1 || ident.head? != some '0')

/-- A build-metadata identifier of the strict grammar: `[0-9a-zA-Z-]+`. -/
def buildIdentOk (ident : List Char) : Bool :=
  !ident.isEmpty && ident.all isIdentChar

/-- One numeric component of the strict grammar, `0|[1-9]\d*`: the maximal
digit run, rejected when empty or when it has a redundant leading zero,
its value parsed by `strconv.ParseUint`. -/
def parseNumStrict (l : List Char) : Option (Nat × List Char) :=
  let ds := l.takeWhile isDigitChar
  if ds.isEmpty then none
  else if 1 < ds.length ∧ ds.head? = some '0' then none
  else (parseUint ds).map fun n => (n, l.dropWhile isDigitChar)

/-- The optional `-prerelease` and `+buildmetadata` tail of `semVerRegex`,
anchored at the end of the text.  The pre-release text runs to the
first `+` (or the end) and must be a dot-separated list of valid
pre-release identifiers; the build metadata must be a dot-separated
list of valid build identifiers. -/
def parseSemVerTail (l : List Char) : Option (String × String) :=
  match l with
  | [] => some ("", "")
  | '-' :: t =>
    let pre := t.takeWhile fun c => c != '+'
    let rest := t.dropWhile fun c => c != '+'
    if (splitOnDot pre).all preReleaseIdentOk then
      match rest with
      | '+' :: b =>
        if (splitOnDot b).all buildIdentOk then some (⟨pre⟩, ⟨b⟩) else none
      | _ => some (⟨pre⟩, "")
    else none
  | '+' :: b => if (splitOnDot b).all buildIdentOk then some ("", ⟨b⟩) else none
  | _ => none

/-- The literal `\.` separator of the strict grammar. -/
def expectDot : List Char → Option (List Char)
  | '.' :: t => some t
  | _ => none

/-- `ParseSemVer`, the strict grammar (`semVerRegex` of `parser.go`):
`major.minor.patch` each without leading zeros, then the optional
pre-release / build-metadata tail, anchored at both ends. -/
def ParseSemVer (s : String) : Option Version :=
  match parseNumStrict s.data with
  | none => none
  | some (major, r1) =>
    match expectDot r1 with
    | none => none
    | some r1t =>
      match parseNumStrict r1t with
      | none => none
      | some (minor, r2) =>
        match expectDot r2 with
        | none => none
        | some r2t =>
          match parseNumStrict r2t with
          | none => none
          | some (patch, r3) =>
            (parseSemVerTail r3).map fun pb =>
              ⟨major, some minor, some patch, pb.1, pb.2⟩

/-- The decimal digit characters. -/
def digitChar (d : Nat) : Char :=
  match d with
  | 0 => '0' | 1 => '1' | 2 => '2' | 3 => '3' | 4 => '4'
  | 5 => '5' | 6 => '6' | 7 => '7' | 8 => '8' | _ => '9'

/-- `strconv.FormatUint(n, 10)`: decimal rendering, most significant digit
first, no leading zeros. -/
def formatUint (n : Nat) : String :=
  if n = 0 then "0" else ⟨((Nat.digits 10 n).map digitChar).reverse⟩

/-- `Version.StrictString` from `version.go`: always render
`major.minor.patch` (absent components default to 0); when a
pre-release or build metadata is present, append it and validate the
assembled string with `ParseSemVer`, failing when validation fails. -/
def Version.StrictString (v : Version) : Option String :=
  let versionStr :=
    formatUint v.major
      ++ "." ++ (match v.minor with | some m => formatUint m | none => "0")
      ++ "." ++ (match v.patch with | some p => formatUint p | none => "0")
  let withPre :=
    if v.preRelease ≠ "" then versionStr ++ "-" ++ v.preRelease else versionStr
  if v.preRelease ≠ "" ∧ (ParseSemVer withPre).isNone then none
  else
    let withBuild :=
      if v.buildMetadata ≠ "" then withPre ++ "+" ++ v.buildMetadata else withPre
    if v.buildMetadata ≠ "" ∧ (ParseSemVer withBuild).isNone then none
    else some withBuild

/-- A heap of Go `uint64` cells; a pointer is an index into `cells`.
This store models the `*uint64` fields of `Version` at the pointer
level, which is what the copy-on-write/no-aliasing claim is about. -/
structure Store where
  cells : List Nat
deriving DecidableEq

/-- Read a cell through a pointer. -/
def Store.read (st : Store) (p : Nat) : Nat := st.cells.getD p 0

/-- `new(uint64)`-style allocation (also the implicit allocation of a
local variable whose address is taken): a fresh cell at the end of the
store, holding `x`. -/
def Store.alloc (st : Store) (x : Nat) : Store × Nat :=
  (⟨st.cells ++ [x]⟩, st.cells.length)

/-- Write through a pointer. -/
def Store.write (st : Store) (p : Nat) (x : Nat) : Store :=
  ⟨st.cells.set p x⟩

/-- The `Version` struct with its two optional `*uint64` fields as
pointers into a `Store`. -/
structure VersionH where
  major : Nat
  minor : Option Nat
  patch : Option Nat
  preRelease : String
  buildMetadata : String
deriving DecidableEq

/-- Pointer-level `Version.clone`: copy each present optional component
into a freshly allocated cell (`minorVal := *v.minor; minor = &minorVal`
and likewise for patch). -/
def cloneH (st : Store) (v : VersionH) : Store × VersionH :=
  let mres :=
    match v.minor with
    | some p => let r := st.alloc (st.read p); (r.1, some r.2)
    | none => (st, (none : Option Nat))
  let pres :=
    match v.patch with
    | some p => let r := mres.1.alloc (mres.1.read p); (r.1, some r.2)
    | none => (mres.1, (none : Option Nat))
  (pres.1, ⟨v.major, mres.2, pres.2, v.preRelease, v.buildMetadata⟩)

/-- Pointer-level `Version.SetPreRelease`. -/
def SetPreReleaseH (st : Store) (v : VersionH) (preRelease : String) : Store × VersionH :=
  let c := cloneH st v
  (c.1, { c.2 with preRelease := preRelease })

/-- Pointer-level `Version.SetBuildMetadata`. -/
def SetBuildMetadataH (st : Store) (v : VersionH) (buildMetadata : String) : Store × VersionH :=
  let c := cloneH st v
  (c.1, { c.2 with buildMetadata := buildMetadata })

/-- Pointer-level `Version.Increment`: clone, clear the labels, then give
the incremented component a fresh cell (`newVersion.patch = new(uint64);
*newVersion.patch = *v.patch + 1`, reading through the original's
pointer). -/
def IncrementH (st : Store) (v : VersionH) : Store × VersionH :=
  let c := cloneH st v
  let nv := { c.2 with preRelease := "", buildMetadata := "" }
  match v.patch with
  | some p =>
    let a := c.1.alloc 0
    (a.1.write a.2 (u64succ (a.1.read p)), { nv with patch := some a.2 })
  | none =>
    match v.minor with
    | some m =>
      let a := c.1.alloc 0
      (a.1.write a.2 (u64succ (a.1.read m)), { nv with minor := some a.2 })
    | none => (c.1, { nv with major := u64succ nv.major })

/-- Pointer-level `Version.IncrementMajor`: a brand-new struct with two
fresh zero cells. -/
def IncrementMajorH (st : Store) (v : VersionH) : Store × VersionH :=
  let a := st.alloc 0
  let b := a.1.alloc 0
  (b.1, ⟨u64succ v.major, some a.2, some b.2, "", ""⟩)

/-- Pointer-level `Version.IncrementMinor`: clone, clear labels, fresh
zero patch cell, backfill a fresh zero minor cell when absent, then
increment through the (cloned or fresh) minor pointer. -/
def IncrementMinorH (st : Store) (v : VersionH) : Store × VersionH :=
  let c := cloneH st v
  let a := c.1.alloc 0
  let nv := { c.2 with preRelease := "", buildMetadata := "", patch := some a.2 }
  match nv.minor with
  | some r => (a.1.write r (u64succ (a.1.read r)), nv)
  | none =>
    let b := a.1.alloc 0
    (b.1.write b.2 (u64succ (b.1.read b.2)), { nv with minor := some b.2 })

/-- Pointer-level `Version.IncrementPatch`: clone, clear labels, backfill
fresh zero cells for absent minor and patch, then increment through the
patch pointer. -/
def IncrementPatchH (st : Store) (v : VersionH) : Store × VersionH :=
  let c := cloneH st v
  let nv0 := { c.2 with preRelease := "", buildMetadata := "" }
  let m :=
    match nv0.minor with
    | some _ => (c.1, nv0)
    | none => let a := c.1.alloc 0; (a.1, { nv0 with minor := some a.2 })
  let p :=
    match m.2.patch with
    | some _ => m
    | none => let a := m.1.alloc 0; (a.1, { m.2 with patch := some a.2 })
  match p.2.patch with
  | some q => (p.1.write q (u64succ (p.1.read q)), p.2)
  | none => p

/-- Pointer-level `Version.IncrementPessimistic`.  In the patch-present
branch Go writes `*newVersion.patch = 0` and then executes
`*newVersion.minor++` without a nil check: with an absent minor this is
a nil-pointer dereference, modelled as `none`. -/
def IncrementPessimisticH (st : Store) (v : VersionH) : Option (Store × VersionH) :=
  let c := cloneH st v
  let nv := { c.2 with preRelease := "", buildMetadata := "" }
  match nv.patch with
  | some q =>
    match nv.minor with
    | some r =>
      let st2 := c.1.write q 0
      some (st2.write r (u64succ (st2.read r)), nv)
    | none => none
  | none =>
    match nv.minor with
    | some _ =>
      let a := c.1.alloc 0
      some (a.1, { nv with minor := some a.2, major := u64succ nv.major })
    | none => some (c.1, { nv with major := u64succ nv.major })

/-- The observable content of a heap-level version: the plain fields plus
the optional components read through the store. -/
def obsH (st : Store) (v : VersionH) : Nat × Option Nat × Option Nat × String × String :=
  (v.major, v.minor.map st.read, v.patch.map st.read, v.preRelease, v.buildMetadata)

/-- The pointers held by a heap-level version. -/
def ptrsH (v : VersionH) : List Nat := v.minor.toList ++ v.patch.toList

/-- All pointers of `v` are live cells of `st`. -/
def ValidH (st : Store) (v : VersionH) : Prop := ∀ p ∈ ptrsH v, p < st.cells.length

/-- `st1` preserves every cell of `st0` (only fresh cells were added or
written). -/
def ExtendsFrom (st0 st1 : Store) : Prop :=
  st0.cells.length ≤ st1.cells.length ∧
    ∀ p < st0.cells.length, st1.read p = st0.read p

/-- Every pointer of `r` was allocated at or after the end of `st0`. -/
def FreshFrom (st0 : Store) (r : VersionH) : Prop :=
  ∀ q ∈ ptrsH r, st0.cells.length ≤ q

/-- Lay a value-level `Version` out in a fresh store, giving each present
optional component its own cell.  Used to state pointer-level
fault-freedom of `IncrementPessimistic` for value-level versions. -/
def allocVersion (v : Version) : Store × VersionH :=
  match v.minor, v.patch with
  | some m, some p => (⟨[m, p]⟩, ⟨v.major, some 0, some 1, v.preRelease, v.buildMetadata⟩)
  | some m, none => (⟨[m]⟩, ⟨v.major, some 0, none, v.preRelease, v.buildMetadata⟩)
  | none, some p => (⟨[p]⟩, ⟨v.major, none, some 0, v.preRelease, v.buildMetadata⟩)
  | none, none => (⟨[]⟩, ⟨v.major, none, none, v.preRelease, v.buildMetadata⟩)

/-- Versions obtainable through the public API: the builder functions, the
two parsers, and the copy-returning mutators applied to an obtainable
version. -/
inductive Reachable : Version → Prop where
  | newVersion (major minor patch : Nat) : Reachable (NewVersion major minor patch)
  | newPreReleaseVersion (major minor patch : Nat) (preRelease : String) :
      Reachable (NewPreReleaseVersion major minor patch preRelease)
  | parseVersion (s : String) (v : Version) : ParseVersion s = some v → Reachable v
  | parseSemVer (s : String) (v : Version) : ParseSemVer s = some v → Reachable v
  | setPreRelease (v : Version) (preRelease : String) :
      Reachable v → Reachable (v.SetPreRelease preRelease)
  | setBuildMetadata (v : Version) (buildMetadata : String) :
      Reachable v → Reachable (v.SetBuildMetadata buildMetadata)
  | increment (v : Version) : Reachable v → Reachable v.Increment
  | incrementMajor (v : Version) : Reachable v → Reachable v.IncrementMajor
  | incrementMinor (v : Version) : Reachable v → Reachable v.IncrementMinor
  | incrementPatch (v : Version) : Reachable v → Reachable v.IncrementPatch
  | incrementPessimistic (v : Version) : Reachable v → Reachable v.IncrementPessimistic

end Verlib

namespace Verlib

section SanityChecks

example : (NewVersion 1 8 999).Satisfies ⟨.GEPessimistic, NewVersion 1 8 0⟩ = true := by decide
example : (NewVersion 1 2 3).Satisfies ⟨.GEPessimistic, NewVersion 1 3 0⟩ = false := by decide
example : Constraint.Overlaps ⟨.GT, NewVersion 2 0 0⟩ ⟨.GT, NewVersion 1 9 9⟩ = false := by decide
example : Contradicts [⟨.GT, NewVersion 1 2 3⟩, ⟨.GE, NewVersion 1 2 3⟩] [] =
    [⟨⟨.GT, NewVersion 1 2 3⟩, ⟨.GE, NewVersion 1 2 3⟩⟩] := by decide
example : Contradicts [⟨.GE, NewVersion 2 0 0⟩, ⟨.LT, NewVersion 2 0 0⟩] [] =
    [⟨⟨.GE, NewVersion 2 0 0⟩, ⟨.LT, NewVersion 2 0 0⟩⟩] := by decide
example : Contradicts [⟨.GE, NewVersion 2 0 0⟩, ⟨.LE, NewVersion 3 0 0⟩] [] = [] := by decide
example : Contradicts [⟨.NE, NewVersion 1 2 3⟩, ⟨.GT, NewVersion 1 2 0⟩] [] ≠ [] := by decide
example : Contradicts [⟨.NE, NewVersion 1 2 3⟩, ⟨.GT, NewVersion 1 2 3⟩] [] = [] := by decide
example : ParseVersion "1.2" = some ⟨1, some 2, none, "", ""⟩ := by decide
example : ParseVersion "1" = some ⟨1, none, none, "", ""⟩ := by decide
example : ParseVersion "1.2.3.DEV" = some ⟨1, some 2, some 3, "", ""⟩ := by decide
example : ParseVersion "-1.0.3-gamma+b7718" = some ⟨1, some 0, some 3, "gamma", "b7718"⟩ := by
  decide
example : ParseVersion "9.8.7+meta+meta" = some ⟨9, some 8, some 7, "", "meta+meta"⟩ := by decide
example : ParseVersion "alpha" = none := by decide
example : ParseVersion "01.1.1" = some ⟨1, some 1, some 1, "", ""⟩ := by decide
example : ParseSemVer "1.2.3" = some ⟨1, some 2, some 3, "", ""⟩ := by decide
example : ParseSemVer "01.1.1" = none := by decide
example : ParseSemVer "1.0.0-alpha..1" = none := by decide
example : ParseSemVer "1.0.0-0A.is.legal" = some ⟨1, some 0, some 0, "0A.is.legal", ""⟩ := by
  decide
example : ParseSemVer "1.1.2-prerelease+meta" = some ⟨1, some 1, some 2, "prerelease", "meta"⟩ := by
  decide
example : (NewVersion 1 2 3).Less (NewVersion 1 2 4) = true := by decide
example : (NewPreReleaseVersion 2 1 0 "alpha").Less ⟨2, some 1, none, "", ""⟩ = true := by decide

end SanityChecks

/-! ### Order lemmas for `Version.Less` -/

theorem goStrLtChars_irrefl : ∀ l : List Char, goStrLtChars l l = false := by
  intro l
  induction l with
  | nil => rfl
  | cons x xs ih => simp [goStrLtChars, ih]

theorem goStrLt_irrefl (s : String) : goStrLt s s = false :=
  goStrLtChars_irrefl s.data

theorem goStrLtChars_asymm :
    ∀ l1 l2 : List Char, goStrLtChars l1 l2 = true → goStrLtChars l2 l1 = false := by
  intro l1
  induction l1 with
  | nil => intro l2 h; cases l2 <;> simp [goStrLtChars] at h ⊢
  | cons x xs ih =>
    intro l2 h
    cases l2 with
    | nil => simp [goStrLtChars] at h
    | cons y ys =>
      simp only [goStrLtChars] at h ⊢
      by_cases h1 : x.toNat < y.toNat
      · have h2 : ¬y.toNat < x.toNat := by omega
        simp [h1, h2]
      · by_cases h2 : y.toNat < x.toNat
        · simp [h1, h2] at h
        · simp only [h1, h2, if_false, if_neg] at h ⊢
          exact ih ys h

theorem goStrLt_asymm {s t : String} (h : goStrLt s t = true) : goStrLt t s = false :=
  goStrLtChars_asymm s.data t.data h

theorem Version.Less_irrefl (a : Version) : a.Less a = false := by
  simp [Version.Less, goStrLt_irrefl]

theorem Version.Less_asymm {a b : Version} (h : a.Less b = true) : b.Less a = false := by
  simp only [Version.Less] at h ⊢
  by_cases h1 : a.Major = b.Major
  · by_cases h2 : a.Minor = b.Minor
    · by_cases h3 : a.Patch = b.Patch
      · simp only [h1, h2, h3, ne_eq, not_true_eq_false, if_false, reduceIte] at h ⊢
        by_cases p1 : a.preRelease = ""
        · by_cases p2 : b.preRelease = ""
          · simp only [p1, p2, ne_eq, not_true_eq_false, and_false, false_and,
              reduceIte] at h ⊢
            rw [goStrLt_irrefl] at h
            exact absurd h (by simp)
          · simp [p1, p2] at h
        · by_cases p2 : b.preRelease = ""
          · simp [p1, p2]
          · simp only [p1, p2, ne_eq, not_false_eq_true, and_true, true_and,
              not_true_eq_false, and_false, false_and, reduceIte] at h ⊢
            exact goStrLt_asymm h
      · have h3s : b.Patch ≠ a.Patch := fun hh => h3 hh.symm
        simp only [h1, h2, h3, h3s, ne_eq, not_true_eq_false, not_false_eq_true,
          if_false, reduceIte, decide_eq_true_eq, decide_eq_false_iff_not] at h ⊢
        omega
    · have h2s : b.Minor ≠ a.Minor := fun hh => h2 hh.symm
      simp only [h1, h2, h2s, ne_eq, not_true_eq_false, not_false_eq_true,
        if_false, reduceIte, decide_eq_true_eq, decide_eq_false_iff_not] at h ⊢
      omega
  · have h1s : b.Major ≠ a.Major := fun hh => h1 hh.symm
    simp only [h1, h1s, ne_eq, not_false_eq_true, reduceIte, decide_eq_true_eq,
      decide_eq_false_iff_not] at h ⊢
    omega

theorem Version.Equal_comm (a b : Version) : a.Equal b = b.Equal a := by
  simp [Version.Equal, Bool.and_comm]

/-! ### Claim theorems -/

/-- Claim C1: for every version `v` and pessimistic constraint over `cv`,
`Satisfies` returns true exactly when `v >= cv` and
`v < cv.IncrementPessimistic`; in particular 1.8.999 satisfies
`~> 1.8.0` and 1.2.3 does not satisfy `~> 1.3.0`. -/
theorem claim1_satisfies_pessimistic :
    ∀ v cv : Version,
      v.Satisfies ⟨.GEPessimistic, cv⟩ =
        (v.GreaterEqual cv && v.Less cv.IncrementPessimistic)
      ∧ (NewVersion 1 8 999).Satisfies ⟨.GEPessimistic, NewVersion 1 8 0⟩ = true
      ∧ (NewVersion 1 2 3).Satisfies ⟨.GEPessimistic, NewVersion 1 3 0⟩ = false :=
  fun _ _ => ⟨rfl, by decide, by decide⟩

/-- Claim C4 counterexample: at `c1 = (> 2.0.0)` and `c2 = (> 1.9.9)` the
code returns `Overlaps = false` although `c2.version <= c1.version`
holds, so "`Overlaps(c1,c2) = true` iff `c2.version <= c1.version`" is
false at this input. -/
theorem claim4_counterexample :
    Constraint.Overlaps ⟨.GT, NewVersion 2 0 0⟩ ⟨.GT, NewVersion 1 9 9⟩ ≠
      (NewVersion 1 9 9).LessEqual (NewVersion 2 0 0) := by decide

/-- Claim C4 amended: for a `>` constraint `c1`, `Overlaps c1 c2` returns
`c1.version.LessEqual c2.version` — this version at most the other's
version, not the other way round — whatever `c2`'s operator is. -/
theorem claim4_overlaps_gt :
    ∀ (v : Version) (c2 : Constraint),
      Constraint.Overlaps ⟨.GT, v⟩ c2 = v.LessEqual c2.version := by
  intro v c2
  simp [Constraint.Overlaps]

/-- Claim C5: a `>=` constraint over `g` and a `~>` constraint over `p`
overlap, in either argument order, exactly when `g >= p` and
`g < p.Increment` — the plain increment, which differs from the
pessimistic increment used by `Satisfies`. -/
theorem claim5_overlaps_ge_pessimistic :
    ∀ g p : Version,
      Constraint.Overlaps ⟨.GE, g⟩ ⟨.GEPessimistic, p⟩ =
        (g.GreaterEqual p && g.Less p.Increment)
      ∧ Constraint.Overlaps ⟨.GEPessimistic, p⟩ ⟨.GE, g⟩ =
        (g.GreaterEqual p && g.Less p.Increment)
      ∧ (NewVersion 1 8 0).Increment ≠ (NewVersion 1 8 0).IncrementPessimistic := by
  intro g p
  refine ⟨?_, ?_, by decide⟩ <;> simp [Constraint.Overlaps]

/-- A two-element constraint set contradicts exactly when the single pair
is flagged in at least one argument order. -/
theorem contradicts_pair (x y : Constraint) :
    Contradicts [x, y] [] =
      if (checkContradict x y || checkContradict y x) = true then [⟨x, y⟩] else [] := by
  by_cases h : (checkContradict x y || checkContradict y x) = true <;>
    simp [Contradicts, contraLoop, List.filter_cons, h]

theorem lessEqual_of_less {va vb : Version} (h : va.Less vb = true) :
    va.LessEqual vb = true := by
  simp [Version.LessEqual, Version.Greater, h]

theorem greater_of_less {va vb : Version} (h : va.Less vb = true) :
    vb.Greater va = true := by
  simp [Version.Greater, h, Version.Less_asymm h]

/-- Claim C2 counterexample: the set {>= 1.0.0, > 1.0.0} has equal
bounds, so the `>` version is less than or equal to the `>=` version,
yet `Contradicts` reports exactly this pair as contradictory. -/
theorem claim2_counterexample :
    (NewVersion 1 0 0).LessEqual (NewVersion 1 0 0) = true
    ∧ Contradicts [⟨.GE, NewVersion 1 0 0⟩, ⟨.GT, NewVersion 1 0 0⟩] [] =
        [⟨⟨.GE, NewVersion 1 0 0⟩, ⟨.GT, NewVersion 1 0 0⟩⟩] :=
  ⟨by decide, by decide⟩

/-- Claim C2 amended: when the `>` constraint's version is strictly less
than the `>=` constraint's version, no contradiction is reported for
the pair in either set order; when the two versions are equal, the
pair is reported contradictory. -/
theorem claim2_gt_ge_contradiction :
    ∀ va vb v : Version, va.Less vb = true →
      Contradicts [⟨.GT, va⟩, ⟨.GE, vb⟩] [] = []
      ∧ Contradicts [⟨.GE, vb⟩, ⟨.GT, va⟩] [] = []
      ∧ Contradicts [⟨.GE, v⟩, ⟨.GT, v⟩] [] = [⟨⟨.GE, v⟩, ⟨.GT, v⟩⟩] := by
  intro va vb v h
  have hc1 : checkContradict ⟨.GT, va⟩ ⟨.GE, vb⟩ = false := by
    simp [checkContradict, lessEqual_of_less h]
  have hc2 : checkContradict ⟨.GE, vb⟩ ⟨.GT, va⟩ = false := by
    simp [checkContradict, greater_of_less h]
  have hc3 : checkContradict ⟨.GE, v⟩ ⟨.GT, v⟩ = true := by
    simp [checkContradict, Version.Greater, Version.Less_irrefl,
      Constraint.Overlaps]
  refine ⟨?_, ?_, ?_⟩ <;> rw [contradicts_pair] <;> simp [hc1, hc2, hc3]

/-- Claim C2 witness: a concrete strictly-less pair is not reported
contradictory, and a concrete equal-bounds pair is. -/
theorem claim2_gt_ge_contradiction_witness :
    Contradicts [⟨.GT, NewVersion 1 0 0⟩, ⟨.GE, NewVersion 1 0 1⟩] [] = []
    ∧ Contradicts [⟨.GE, NewVersion 1 0 1⟩, ⟨.GT, NewVersion 1 0 0⟩] [] = []
    ∧ Contradicts [⟨.GE, NewVersion 2 0 0⟩, ⟨.GT, NewVersion 2 0 0⟩] [] =
        [⟨⟨.GE, NewVersion 2 0 0⟩, ⟨.GT, NewVersion 2 0 0⟩⟩] :=
  claim2_gt_ge_contradiction (NewVersion 1 0 0) (NewVersion 1 0 1) (NewVersion 2 0 0)
    (by decide)

/-- Claim C3 counterexample: for the pair {= 1.2.3, != 1.2.3} the other
constraint's version (1.2.3) does not satisfy the `!=` constraint, yet
a contradiction is reported; so "contradiction iff the other's version
satisfies the `!=` constraint" is false at this input. -/
theorem claim3_counterexample :
    Contradicts [⟨.EQ, NewVersion 1 2 3⟩, ⟨.NE, NewVersion 1 2 3⟩] [] ≠ []
    ∧ (NewVersion 1 2 3).Satisfies ⟨.NE, NewVersion 1 2 3⟩ = false :=
  ⟨by decide, by decide⟩

/-- Claim C3 amended: for a pair with exactly one `!=` constraint, the
pair is flagged (in the at-least-one-order sense used by
`Contradicts`) exactly when the `!=` constraint's own version satisfies
the other constraint; a pair of two `!=` constraints is never flagged
(the identical-pair rule fires first when the versions are equal). -/
theorem claim3_ne_contradiction :
    ∀ (v1 v2 : Version) (c2 : Constraint), c2.operator ≠ .NE →
      ((checkContradict ⟨.NE, v1⟩ c2 || checkContradict c2 ⟨.NE, v1⟩) = v1.Satisfies c2)
      ∧ ((checkContradict ⟨.NE, v1⟩ ⟨.NE, v2⟩ ||
          checkContradict ⟨.NE, v2⟩ ⟨.NE, v1⟩) = false) := by
  intro v1 v2 c2 hne
  constructor
  · obtain ⟨op, w⟩ := c2
    cases op <;> first
      | exact absurd rfl hne
      | simp [checkContradict]
  · cases he : v1.Equal v2 with
    | false =>
      have he2 : v2.Equal v1 = false := by rw [Version.Equal_comm]; exact he
      simp [checkContradict, he, he2]
    | true =>
      have he2 : v2.Equal v1 = true := by rw [Version.Equal_comm]; exact he
      simp [checkContradict, he, he2]

/-- Claim C3 witness: concrete instances of the amended rule. -/
theorem claim3_ne_contradiction_witness :
    ((checkContradict ⟨.NE, NewVersion 1 0 0⟩ ⟨.GT, NewVersion 0 0 0⟩ ||
      checkContradict ⟨.GT, NewVersion 0 0 0⟩ ⟨.NE, NewVersion 1 0 0⟩) =
        (NewVersion 1 0 0).Satisfies ⟨.GT, NewVersion 0 0 0⟩)
    ∧ ((checkContradict ⟨.NE, NewVersion 1 0 0⟩ ⟨.NE, NewVersion 2 0 0⟩ ||
        checkContradict ⟨.NE, NewVersion 2 0 0⟩ ⟨.NE, NewVersion 1 0 0⟩) = false) :=
  claim3_ne_contradiction (NewVersion 1 0 0) (NewVersion 2 0 0)
    ⟨.GT, NewVersion 0 0 0⟩ (by decide)

/-- List membership as a split of the list around the element. -/
theorem elem_split_iff {α : Type} {a : α} {l : List α} :
    a ∈ l ↔ ∃ s t, l = s ++ a :: t := by
  constructor
  · intro h
    exact List.append_of_mem h
  · rintro ⟨s, t, rfl⟩
    simp

/-- Membership in the nested-loop pair collection: an error is collected
exactly when its two constraints occur at positions `i < j` of the
flattened list and the pair is flagged in at least one argument
order. -/
theorem contraLoop_mem (l : List Constraint) (e : ContradictionErr) :
    e ∈ contraLoop l ↔
      ∃ l1 l2 l3, l = l1 ++ e.c1 :: l2 ++ e.c2 :: l3 ∧
        (checkContradict e.c1 e.c2 || checkContradict e.c2 e.c1) = true := by
  induction l with
  | nil =>
    simp only [contraLoop, List.not_mem_nil, false_iff]
    rintro ⟨l1, l2, l3, hl, -⟩
    cases l1 <;> simp at hl
  | cons c1 rest ih =>
    simp only [contraLoop, List.mem_append, List.mem_map, List.mem_filter]
    constructor
    · rintro (⟨c2, ⟨hc2mem, hcond⟩, rfl⟩ | hmem)
      · obtain ⟨s, t, rfl⟩ := elem_split_iff.1 hc2mem
        exact ⟨[], s, t, by simp, hcond⟩
      · obtain ⟨l1, l2, l3, hl, hcond⟩ := ih.1 hmem
        exact ⟨c1 :: l1, l2, l3, by simp [hl], hcond⟩
    · rintro ⟨l1, l2, l3, hl, hcond⟩
      cases l1 with
      | nil =>
        simp only [List.nil_append, List.cons.injEq] at hl
        obtain ⟨h1, h2⟩ := hl
        left
        refine ⟨e.c2, ⟨?_, hcond⟩, ?_⟩
        · exact elem_split_iff.2 ⟨l2, l3, rfl⟩
        · rfl
      | cons x l1t =>
        simp only [List.cons_append, List.cons.injEq] at hl
        right
        exact ih.2 ⟨l1t, l2, l3, hl.2, hcond⟩

/-- Claim C6: `Contradicts` flattens the receiver and the additional sets
into one sequence; an error for the pair `(a, b)` is recoverable from
the result exactly when `a` occurs before `b` in that sequence and
`checkContradict` flags the pair in at least one argument order; the
result is empty (the Go function returns `nil`) exactly when no such
pair exists; and the two concrete examples behave as claimed. -/
theorem claim6_contradicts_spec :
    ∀ (c : Constraints) (additional : List Constraints),
      (∀ e : ContradictionErr,
        e ∈ Contradicts c additional ↔
          ∃ l1 l2 l3, c ++ additional.flatten = l1 ++ e.c1 :: l2 ++ e.c2 :: l3 ∧
            (checkContradict e.c1 e.c2 || checkContradict e.c2 e.c1) = true)
      ∧ (Contradicts c additional = [] ↔
          ∀ (l1 l2 l3 : List Constraint) (a b : Constraint),
            c ++ additional.flatten = l1 ++ a :: l2 ++ b :: l3 →
            (checkContradict a b || checkContradict b a) = false)
      ∧ Contradicts [⟨.GE, NewVersion 2 0 0⟩, ⟨.LT, NewVersion 2 0 0⟩] [] =
          [⟨⟨.GE, NewVersion 2 0 0⟩, ⟨.LT, NewVersion 2 0 0⟩⟩]
      ∧ Contradicts [⟨.GE, NewVersion 2 0 0⟩, ⟨.LE, NewVersion 3 0 0⟩] [] = [] := by
  intro c additional
  refine ⟨fun e => contraLoop_mem _ e, ?_, by decide, by decide⟩
  rw [List.eq_nil_iff_forall_not_mem]
  constructor
  · intro hnone l1 l2 l3 a b hdec
    by_contra hne
    have hcond : (checkContradict a b || checkContradict b a) = true := by
      cases hv : (checkContradict a b || checkContradict b a)
      · exact absurd hv hne
      · rfl
    exact hnone ⟨a, b⟩ ((contraLoop_mem _ ⟨a, b⟩).2 ⟨l1, l2, l3, hdec, hcond⟩)
  · intro hall e hmem
    obtain ⟨l1, l2, l3, hdec, hcond⟩ := (contraLoop_mem _ e).1 hmem
    rw [hall l1 l2 l3 e.c1 e.c2 hdec] at hcond
    exact Bool.false_ne_true hcond

/-- Claim C6 witness: the two concrete example sets. -/
theorem claim6_contradicts_spec_witness :
    Contradicts [⟨.GE, NewVersion 2 0 0⟩, ⟨.LT, NewVersion 2 0 0⟩] [] =
      [⟨⟨.GE, NewVersion 2 0 0⟩, ⟨.LT, NewVersion 2 0 0⟩⟩]
    ∧ Contradicts [⟨.GE, NewVersion 2 0 0⟩, ⟨.LE, NewVersion 3 0 0⟩] [] = [] :=
  ⟨(claim6_contradicts_spec [] []).2.2.1, (claim6_contradicts_spec [] []).2.2.2⟩

/-- A non-participating optional `(\.\d+)?` group leaves the input where
it was. -/
theorem parseOptDotNum_none_eq :
    ∀ {l r : List Char}, parseOptDotNum l = some (none, r) → r = l := by
  intro l r h
  unfold parseOptDotNum at h
  split at h
  · dsimp only at h
    split at h
    · simp only [Option.some.injEq, Prod.mk.injEq] at h
      exact h.2.symm
    · split at h
      · simp at h
      · simp at h
  · simp only [Option.some.injEq, Prod.mk.injEq] at h
    exact h.2.symm

/-- When the minor group of the lenient grammar does not participate, the
patch group — the same pattern tried at the same position — cannot
participate either. -/
theorem parseOptDotNum_pair {x r2 r3 : List Char} {minor patch : Option Nat}
    (h1 : parseOptDotNum x = some (minor, r2))
    (h2 : parseOptDotNum r2 = some (patch, r3)) :
    patch.isSome = true → minor.isSome = true := by
  intro hp
  cases minor with
  | some m => rfl
  | none =>
    have hr : r2 = x := parseOptDotNum_none_eq h1
    subst hr
    rw [h1] at h2
    simp only [Option.some.injEq, Prod.mk.injEq] at h2
    rw [← h2.1] at hp
    simp at hp

/-- A version produced by the lenient parser has a present minor whenever
its patch is present. -/
theorem parseVersion_patch_implies_minor {s : String} {v : Version}
    (h : ParseVersion s = some v) : v.patch.isSome = true → v.minor.isSome = true := by
  unfold ParseVersion at h
  dsimp only at h
  split at h
  · exact absurd h (by simp)
  · split at h
    · exact absurd h (by simp)
    · split at h
      · exact absurd h (by simp)
      · split at h
        · exact absurd h (by simp)
        · split at h
          · exact absurd h (by simp)
          · simp only [Option.some.injEq] at h
            subst h
            exact parseOptDotNum_pair (by assumption) (by assumption)

/-- A version produced by the strict parser has both minor and patch
present. -/
theorem parseSemVer_components {s : String} {v : Version}
    (h : ParseSemVer s = some v) :
    v.minor.isSome = true ∧ v.patch.isSome = true := by
  unfold ParseSemVer at h
  split at h
  · exact absurd h (by simp)
  · split at h
    · exact absurd h (by simp)
    · split at h
      · exact absurd h (by simp)
      · split at h
        · exact absurd h (by simp)
        · split at h
          · exact absurd h (by simp)
          · simp only [Option.map_eq_some'] at h
            obtain ⟨pb, -, hv⟩ := h
            subst hv
            exact ⟨rfl, rfl⟩

/-- The patch-present/minor-present invariant holds for every version
obtainable through the public API. -/
theorem reachable_patch_implies_minor {v : Version} (h : Reachable v) :
    v.patch.isSome = true → v.minor.isSome = true := by
  induction h with
  | newVersion major minor patch => intro _; rfl
  | newPreReleaseVersion major minor patch preRelease => intro _; rfl
  | parseVersion s v hp => exact parseVersion_patch_implies_minor hp
  | parseSemVer s v hp => intro _; exact (parseSemVer_components hp).1
  | setPreRelease v preRelease _ ih => exact ih
  | setBuildMetadata v buildMetadata _ ih => exact ih
  | increment v _ ih =>
    cases hp : v.patch with
    | some p =>
      intro _
      have hm := ih (by simp [hp])
      simp [Version.Increment, Version.clone, hp]
      exact hm
    | none =>
      cases hm : v.minor with
      | some m => simp [Version.Increment, Version.clone, hp, hm]
      | none => simp [Version.Increment, Version.clone, hp, hm]
  | incrementMajor v _ ih => intro _; rfl
  | incrementMinor v _ ih => intro _; rfl
  | incrementPatch v _ ih => intro _; rfl
  | incrementPessimistic v _ ih =>
    cases hp : v.patch with
    | some p =>
      intro _
      have hminor := ih (by simp [hp])
      cases hm : v.minor with
      | some m => simp [Version.IncrementPessimistic, Version.clone, hp, hm]
      | none => rw [hm] at hminor; simp at hminor
    | none =>
      cases hm : v.minor with
      | some m => simp [Version.IncrementPessimistic, Version.clone, hp, hm]
      | none => simp [Version.IncrementPessimistic, Version.clone, hp, hm]

/-- Claim C10: every API-obtainable version has a present minor whenever
its patch is present, and consequently the pointer-level
`IncrementPessimistic` — whose patch-present branch dereferences the
minor pointer unguarded — does not fault on such a version. -/
theorem claim10_patch_implies_minor :
    ∀ v : Version, Reachable v →
      (v.patch.isSome = true → v.minor.isSome = true)
      ∧ (IncrementPessimisticH (allocVersion v).1 (allocVersion v).2).isSome = true := by
  intro v hv
  have hinv := reachable_patch_implies_minor hv
  refine ⟨hinv, ?_⟩
  cases hp : v.patch with
  | some p =>
    have hm := hinv (by simp [hp])
    cases hmm : v.minor with
    | some m =>
      simp [allocVersion, hp, hmm, IncrementPessimisticH, cloneH, Store.alloc,
        Store.read, Store.write]
    | none => rw [hmm] at hm; simp at hm
  | none =>
    cases hmm : v.minor with
    | some m =>
      simp [allocVersion, hp, hmm, IncrementPessimisticH, cloneH, Store.alloc,
        Store.read, Store.write]
    | none =>
      simp [allocVersion, hp, hmm, IncrementPessimisticH, cloneH, Store.alloc,
        Store.read, Store.write]

/-- Claim C10 witness: a concrete builder-produced version. -/
theorem claim10_patch_implies_minor_witness :
    (((NewVersion 1 2 3).patch.isSome = true → (NewVersion 1 2 3).minor.isSome = true)
      ∧ (IncrementPessimisticH (allocVersion (NewVersion 1 2 3)).1
          (allocVersion (NewVersion 1 2 3)).2).isSome = true) :=
  claim10_patch_implies_minor (NewVersion 1 2 3) (Reachable.newVersion 1 2 3)

/-! ### Decimal rendering / parsing lemmas for the round-trip claim -/

theorem digitVal_digitChar {d : Nat} (h : d < 10) : digitVal (digitChar d) = d := by
  interval_cases d <;> rfl

theorem isDigitChar_digitChar {d : Nat} (h : d < 10) : isDigitChar (digitChar d) = true := by
  interval_cases d <;> rfl

theorem digitChar_ne_zero {d : Nat} (h : d < 10) (h0 : d ≠ 0) : digitChar d ≠ '0' := by
  interval_cases d <;> first
    | exact absurd rfl h0
    | decide

theorem foldl_digits_reverse (L : List Nat) (hL : ∀ d ∈ L, d < 10) :
    ∀ acc : Nat,
      ((L.map digitChar).reverse).foldl (fun a c => a * 10 + digitVal c) acc =
        acc * 10 ^ L.length + Nat.ofDigits 10 L := by
  induction L with
  | nil => intro acc; simp
  | cons d T ih =>
    intro acc
    have hd : d < 10 := hL d (by simp)
    have hT : ∀ x ∈ T, x < 10 := fun x hx => hL x (by simp [hx])
    simp only [List.map_cons, List.reverse_cons, List.foldl_append, List.foldl_cons,
      List.foldl_nil]
    rw [ih hT acc, digitVal_digitChar hd, Nat.ofDigits_cons]
    simp only [List.length_cons, pow_succ]
    ring

theorem parseUintDigits_format (n : Nat) : parseUintDigits (formatUint n).data = n := by
  by_cases h : n = 0
  · subst h; decide
  · unfold formatUint parseUintDigits
    rw [if_neg h]
    show ((Nat.digits 10 n).map digitChar).reverse.foldl _ 0 = n
    rw [foldl_digits_reverse _ (fun d hd => Nat.digits_lt_base (by norm_num) hd) 0]
    simp [Nat.ofDigits_digits]

theorem formatUint_all_digits (n : Nat) :
    ∀ c ∈ (formatUint n).data, isDigitChar c = true := by
  unfold formatUint
  split
  · intro c hc; simp at hc; subst hc; decide
  · intro c hc
    simp only [List.mem_reverse, List.mem_map] at hc
    obtain ⟨d, hd, rfl⟩ := hc
    exact isDigitChar_digitChar (Nat.digits_lt_base (by norm_num) hd)

theorem formatUint_ne_nil (n : Nat) : (formatUint n).data ≠ [] := by
  unfold formatUint
  split
  · decide
  · rename_i hn
    show ((Nat.digits 10 n).map digitChar).reverse ≠ []
    simp [Nat.digits_ne_nil_iff_ne_zero.2 hn]

theorem formatUint_no_leading_zero (n : Nat) :
    ¬(1 < (formatUint n).data.length ∧ (formatUint n).data.head? = some '0') := by
  unfold formatUint
  split
  · rintro ⟨h1, -⟩
    simp at h1
  · rename_i hn
    rintro ⟨-, h2⟩
    have hne : Nat.digits 10 n ≠ [] := Nat.digits_ne_nil_iff_ne_zero.2 hn
    have hmapne : (Nat.digits 10 n).map digitChar ≠ [] := by simp [hne]
    rw [show (({ data := ((Nat.digits 10 n).map digitChar).reverse } : String).data) =
        ((Nat.digits 10 n).map digitChar).reverse from rfl, List.head?_reverse,
      List.getLast?_eq_getLast _ hmapne, List.getLast_map] at h2
    have hlast10 : (Nat.digits 10 n).getLast hne < 10 :=
      Nat.digits_lt_base (by norm_num) (List.getLast_mem hne)
    have hlast0 : (Nat.digits 10 n).getLast hne ≠ 0 := Nat.getLast_digit_ne_zero 10 hn
    exact digitChar_ne_zero hlast10 hlast0 (Option.some.injEq _ _ ▸ h2)

theorem parseUint_format {n : Nat} (h : n < u64Mod) :
    parseUint (formatUint n).data = some n := by
  unfold parseUint
  have hempty : (formatUint n).data.isEmpty = false := by
    cases hl : (formatUint n).data with
    | nil => exact absurd hl (formatUint_ne_nil n)
    | cons x xs => rfl
  have hall : (formatUint n).data.all isDigitChar = true := by
    simp only [List.all_eq_true]
    exact formatUint_all_digits n
  simp [hempty, hall, parseUintDigits_format n, h]

theorem takeWhile_append_stop {p : Char → Bool} :
    ∀ (l1 : List Char) {c : Char} (l2 : List Char), (∀ x ∈ l1, p x = true) → p c = false →
      (l1 ++ c :: l2).takeWhile p = l1 := by
  intro l1
  induction l1 with
  | nil => intro c l2 _ hc; simp [List.takeWhile_cons, hc]
  | cons x xs ih =>
    intro c l2 hall hc
    simp only [List.cons_append, List.takeWhile_cons, hall x (by simp), if_true, reduceIte]
    rw [ih l2 (fun y hy => hall y (by simp [hy])) hc]

theorem dropWhile_append_stop {p : Char → Bool} :
    ∀ (l1 : List Char) {c : Char} (l2 : List Char), (∀ x ∈ l1, p x = true) → p c = false →
      (l1 ++ c :: l2).dropWhile p = c :: l2 := by
  intro l1
  induction l1 with
  | nil => intro c l2 _ hc; simp [List.dropWhile_cons, hc]
  | cons x xs ih =>
    intro c l2 hall hc
    simp only [List.cons_append, List.dropWhile_cons, hall x (by simp), if_true, reduceIte]
    rw [ih l2 (fun y hy => hall y (by simp [hy])) hc]

theorem takeWhile_all_eq {p : Char → Bool} :
    ∀ l : List Char, (∀ x ∈ l, p x = true) → l.takeWhile p = l := by
  intro l
  induction l with
  | nil => intro _; rfl
  | cons x xs ih =>
    intro hall
    simp only [List.takeWhile_cons, hall x (by simp), if_true, reduceIte]
    rw [ih (fun y hy => hall y (by simp [hy]))]

theorem dropWhile_all_nil {p : Char → Bool} :
    ∀ l : List Char, (∀ x ∈ l, p x = true) → l.dropWhile p = [] := by
  intro l
  induction l with
  | nil => intro _; rfl
  | cons x xs ih =>
    intro hall
    simp only [List.dropWhile_cons, hall x (by simp), if_true, reduceIte]
    exact ih (fun y hy => hall y (by simp [hy]))

/-- A strict numeric component parses a rendered number followed by a
non-digit. -/
theorem parseNumStrict_format_cons {n : Nat} (hn : n < u64Mod) {c : Char}
    (hc : isDigitChar c = false) (l2 : List Char) :
    parseNumStrict ((formatUint n).data ++ c :: l2) = some (n, c :: l2) := by
  unfold parseNumStrict
  rw [takeWhile_append_stop _ l2 (formatUint_all_digits n) hc,
    dropWhile_append_stop _ l2 (formatUint_all_digits n) hc]
  have hempty : (formatUint n).data.isEmpty = false := by
    cases hl : (formatUint n).data with
    | nil => exact absurd hl (formatUint_ne_nil n)
    | cons x xs => rfl
  simp [hempty, parseUint_format hn]
  intro h1 h2
  exact formatUint_no_leading_zero n ⟨by simpa using h1, h2⟩

/-- A strict numeric component parses a rendered number at the end of the
input. -/
theorem parseNumStrict_format_all {n : Nat} (hn : n < u64Mod) :
    parseNumStrict (formatUint n).data = some (n, []) := by
  unfold parseNumStrict
  rw [takeWhile_all_eq _ (formatUint_all_digits n),
    dropWhile_all_nil _ (formatUint_all_digits n)]
  have hempty : (formatUint n).data.isEmpty = false := by
    cases hl : (formatUint n).data with
    | nil => exact absurd hl (formatUint_ne_nil n)
    | cons x xs => rfl
  simp [hempty, parseUint_format hn]
  intro h1 h2
  exact formatUint_no_leading_zero n ⟨by simpa using h1, h2⟩

/-- Claim C8: for every builder-produced version with in-range components,
`StrictString` succeeds and `ParseSemVer` of its output reproduces the
version exactly (same major, minor, patch, pre-release and build
metadata). -/
theorem claim8_roundtrip :
    ∀ major minor patch : Nat, major < u64Mod → minor < u64Mod → patch < u64Mod →
      ∃ s, (NewVersion major minor patch).StrictString = some s
        ∧ ParseSemVer s = some (NewVersion major minor patch) := by
  intro a b c ha hb hc
  have hstrict : (NewVersion a b c).StrictString =
      some (formatUint a ++ "." ++ formatUint b ++ "." ++ formatUint c) := by
    unfold Version.StrictString
    simp [NewVersion]
  refine ⟨_, hstrict, ?_⟩
  have hdata : (formatUint a ++ "." ++ formatUint b ++ "." ++ formatUint c).data =
      (formatUint a).data ++ '.' :: ((formatUint b).data ++ '.' :: (formatUint c).data) := by
    have hdot : ("." : String).data = ['.'] := rfl
    simp [String.data_append, hdot]
  unfold ParseSemVer
  rw [hdata,
    parseNumStrict_format_cons ha (by decide) ((formatUint b).data ++ '.' :: (formatUint c).data)]
  dsimp only
  rw [show expectDot ('.' :: ((formatUint b).data ++ '.' :: (formatUint c).data)) =
    some ((formatUint b).data ++ '.' :: (formatUint c).data) from rfl]
  dsimp only
  rw [parseNumStrict_format_cons hb (by decide) (formatUint c).data]
  dsimp only
  rw [show expectDot ('.' :: (formatUint c).data) = some (formatUint c).data from rfl]
  dsimp only
  rw [parseNumStrict_format_all hc]
  rfl

/-- Claim C8 witness: the concrete version 1.2.3. -/
theorem claim8_roundtrip_witness :
    ∃ s, (NewVersion 1 2 3).StrictString = some s
      ∧ ParseSemVer s = some (NewVersion 1 2 3) :=
  claim8_roundtrip 1 2 3 (by decide) (by decide) (by decide)

/-! ### Frame lemmas for the heap-level embedding -/

theorem getD_set_ne : ∀ (l : List Nat) (q p x : Nat), p ≠ q →
    (l.set q x).getD p 0 = l.getD p 0 := by
  intro l
  induction l with
  | nil => intro q p x _; rfl
  | cons a t ih =>
    intro q p x hpq
    cases q with
    | zero =>
      cases p with
      | zero => exact absurd rfl hpq
      | succ pp => rfl
    | succ qq =>
      cases p with
      | zero => rfl
      | succ pp => exact ih qq pp x (fun hh => hpq (by rw [hh]))

theorem getD_append_lt : ∀ (l1 l2 : List Nat) (p : Nat), p < l1.length →
    (l1 ++ l2).getD p 0 = l1.getD p 0 := by
  intro l1
  induction l1 with
  | nil => intro l2 p hp; simp at hp
  | cons a t ih =>
    intro l2 p hp
    cases p with
    | zero => rfl
    | succ pp => exact ih l2 pp (by simp at hp; omega)

theorem extendsFrom_refl (st : Store) : ExtendsFrom st st :=
  ⟨Nat.le_refl _, fun _ _ => rfl⟩

theorem alloc_snd (st : Store) (x : Nat) : (st.alloc x).2 = st.cells.length := rfl

theorem alloc_fst_length (st : Store) (x : Nat) :
    (st.alloc x).1.cells.length = st.cells.length + 1 := by
  simp [Store.alloc]

theorem write_length (st : Store) (q x : Nat) :
    (st.write q x).cells.length = st.cells.length := by
  simp [Store.write]

theorem extendsFrom_alloc {st0 st1 : Store} (x : Nat) (h : ExtendsFrom st0 st1) :
    ExtendsFrom st0 (st1.alloc x).1 := by
  obtain ⟨hle, hread⟩ := h
  refine ⟨by rw [alloc_fst_length]; omega, ?_⟩
  intro p hp
  rw [← hread p hp]
  show ((st1.cells ++ [x]).getD p 0) = st1.cells.getD p 0
  exact getD_append_lt st1.cells [x] p (by omega)

theorem extendsFrom_write {st0 st1 : Store} {q : Nat} (x : Nat) (h : ExtendsFrom st0 st1)
    (hq : st0.cells.length ≤ q) : ExtendsFrom st0 (st1.write q x) := by
  obtain ⟨hle, hread⟩ := h
  refine ⟨by rw [write_length]; omega, ?_⟩
  intro p hp
  rw [← hread p hp]
  show ((st1.cells.set q x).getD p 0) = st1.cells.getD p 0
  exact getD_set_ne st1.cells q p x (by omega)

theorem extendsFrom_length {st0 st1 : Store} (h : ExtendsFrom st0 st1) :
    st0.cells.length ≤ st1.cells.length := h.1

/-- Pointer-level clone extends the store and returns only fresh
pointers. -/
theorem cloneH_spec (st : Store) (v : VersionH) :
    ExtendsFrom st (cloneH st v).1 ∧ FreshFrom st (cloneH st v).2 := by
  cases hm : v.minor with
  | none =>
    cases hp : v.patch with
    | none =>
      simp only [cloneH, hm, hp]
      exact ⟨extendsFrom_refl st, by intro q hq; simp [ptrsH] at hq⟩
    | some p =>
      simp only [cloneH, hm, hp]
      refine ⟨extendsFrom_alloc _ (extendsFrom_refl st), ?_⟩
      intro q hq
      simp only [ptrsH, Option.toList_none, Option.toList_some, List.nil_append,
        List.mem_singleton] at hq
      subst hq
      rw [alloc_snd]
  | some m =>
    cases hp : v.patch with
    | none =>
      simp only [cloneH, hm, hp]
      refine ⟨extendsFrom_alloc _ (extendsFrom_refl st), ?_⟩
      intro q hq
      simp only [ptrsH, Option.toList_none, Option.toList_some, List.append_nil,
        List.mem_singleton] at hq
      subst hq
      rw [alloc_snd]
    | some p =>
      simp only [cloneH, hm, hp]
      refine ⟨extendsFrom_alloc _ (extendsFrom_alloc _ (extendsFrom_refl st)), ?_⟩
      intro q hq
      simp only [ptrsH, Option.toList_some, List.mem_append, List.mem_singleton] at hq
      rcases hq with rfl | rfl
      · rw [alloc_snd]
      · rw [alloc_snd, alloc_fst_length]
        omega

theorem ptrsH_fields (v w : VersionH) (hminor : v.minor = w.minor)
    (hpatch : v.patch = w.patch) : ptrsH v = ptrsH w := by
  simp [ptrsH, hminor, hpatch]

theorem setPreReleaseH_spec (st : Store) (v : VersionH) (preRelease : String) :
    ExtendsFrom st (SetPreReleaseH st v preRelease).1
    ∧ FreshFrom st (SetPreReleaseH st v preRelease).2 := by
  have h := cloneH_spec st v
  exact ⟨h.1, h.2⟩

theorem setBuildMetadataH_spec (st : Store) (v : VersionH) (buildMetadata : String) :
    ExtendsFrom st (SetBuildMetadataH st v buildMetadata).1
    ∧ FreshFrom st (SetBuildMetadataH st v buildMetadata).2 := by
  have h := cloneH_spec st v
  exact ⟨h.1, h.2⟩

theorem incrementH_spec (st : Store) (v : VersionH) :
    ExtendsFrom st (IncrementH st v).1 ∧ FreshFrom st (IncrementH st v).2 := by
  obtain ⟨hce, hcf⟩ := cloneH_spec st v
  cases hp : v.patch with
  | some p =>
    simp only [IncrementH, hp]
    refine ⟨extendsFrom_write _ (extendsFrom_alloc _ hce)
      (by rw [alloc_snd]; exact extendsFrom_length hce), ?_⟩
    intro q hq
    simp only [ptrsH, Option.toList_some, List.mem_append, List.mem_singleton] at hq
    rcases hq with hq | rfl
    · exact hcf q (List.mem_append.2 (Or.inl hq))
    · rw [alloc_snd]; exact extendsFrom_length hce
  | none =>
    cases hm : v.minor with
    | some m =>
      simp only [IncrementH, hp, hm]
      refine ⟨extendsFrom_write _ (extendsFrom_alloc _ hce)
        (by rw [alloc_snd]; exact extendsFrom_length hce), ?_⟩
      intro q hq
      simp only [ptrsH, Option.toList_some, List.mem_append, List.mem_singleton] at hq
      rcases hq with rfl | hq
      · rw [alloc_snd]; exact extendsFrom_length hce
      · exact hcf q (List.mem_append.2 (Or.inr hq))
    | none =>
      simp only [IncrementH, hp, hm]
      exact ⟨hce, fun q hq => hcf q hq⟩

theorem incrementMajorH_spec (st : Store) (v : VersionH) :
    ExtendsFrom st (IncrementMajorH st v).1 ∧ FreshFrom st (IncrementMajorH st v).2 := by
  refine ⟨extendsFrom_alloc _ (extendsFrom_alloc _ (extendsFrom_refl st)), ?_⟩
  intro q hq
  simp only [IncrementMajorH, ptrsH, Option.toList_some, List.mem_append,
    List.mem_singleton] at hq
  rcases hq with rfl | rfl
  · rw [alloc_snd]
  · rw [alloc_snd, alloc_fst_length]
    omega

theorem incrementMinorH_spec (st : Store) (v : VersionH) :
    ExtendsFrom st (IncrementMinorH st v).1 ∧ FreshFrom st (IncrementMinorH st v).2 := by
  obtain ⟨hce, hcf⟩ := cloneH_spec st v
  cases hcm : (cloneH st v).2.minor with
  | some r =>
    have hr : st.cells.length ≤ r :=
      hcf r (by simp [ptrsH, List.mem_append, hcm])
    simp only [IncrementMinorH, hcm]
    refine ⟨extendsFrom_write _ (extendsFrom_alloc _ hce) hr, ?_⟩
    intro q hq
    simp only [ptrsH, hcm, Option.toList_some, List.mem_append, List.mem_singleton] at hq
    rcases hq with rfl | rfl
    · exact hr
    · rw [alloc_snd]; exact extendsFrom_length hce
  | none =>
    simp only [IncrementMinorH, hcm]
    refine ⟨extendsFrom_write _ (extendsFrom_alloc _ (extendsFrom_alloc _ hce))
      (by rw [alloc_snd, alloc_fst_length]; have := extendsFrom_length hce; omega), ?_⟩
    intro q hq
    simp only [ptrsH, Option.toList_some, List.mem_append, List.mem_singleton] at hq
    rcases hq with rfl | rfl
    · rw [alloc_snd, alloc_fst_length]
      have := extendsFrom_length hce
      omega
    · rw [alloc_snd]; exact extendsFrom_length hce

theorem incrementPatchH_spec (st : Store) (v : VersionH) :
    ExtendsFrom st (IncrementPatchH st v).1 ∧ FreshFrom st (IncrementPatchH st v).2 := by
  obtain ⟨hce, hcf⟩ := cloneH_spec st v
  cases hcm : (cloneH st v).2.minor with
  | some r =>
    have hr : st.cells.length ≤ r :=
      hcf r (by simp [ptrsH, List.mem_append, hcm])
    cases hcp : (cloneH st v).2.patch with
    | some q0 =>
      have hq0 : st.cells.length ≤ q0 :=
        hcf q0 (by simp [ptrsH, List.mem_append, hcp])
      simp only [IncrementPatchH, hcm, hcp]
      refine ⟨extendsFrom_write _ hce hq0, ?_⟩
      intro q hq
      simp only [ptrsH, hcm, hcp, Option.toList_some, List.mem_append,
        List.mem_singleton] at hq
      rcases hq with rfl | rfl
      · exact hr
      · exact hq0
    | none =>
      simp only [IncrementPatchH, hcm, hcp]
      refine ⟨extendsFrom_write _ (extendsFrom_alloc _ hce)
        (by rw [alloc_snd]; exact extendsFrom_length hce), ?_⟩
      intro q hq
      simp only [ptrsH, hcm, Option.toList_some, List.mem_append,
        List.mem_singleton] at hq
      rcases hq with rfl | rfl
      · exact hr
      · rw [alloc_snd]; exact extendsFrom_length hce
  | none =>
    cases hcp : (cloneH st v).2.patch with
    | some q0 =>
      have hq0 : st.cells.length ≤ q0 :=
        hcf q0 (by simp [ptrsH, List.mem_append, hcp])
      simp only [IncrementPatchH, hcm, hcp]
      refine ⟨extendsFrom_write _ (extendsFrom_alloc _ hce) hq0, ?_⟩
      intro q hq
      simp only [ptrsH, hcp, Option.toList_some, List.mem_append,
        List.mem_singleton] at hq
      rcases hq with rfl | rfl
      · rw [alloc_snd]; exact extendsFrom_length hce
      · exact hq0
    | none =>
      simp only [IncrementPatchH, hcm, hcp]
      refine ⟨extendsFrom_write _ (extendsFrom_alloc _ (extendsFrom_alloc _ hce))
        (by rw [alloc_snd, alloc_fst_length]; have := extendsFrom_length hce; omega), ?_⟩
      intro q hq
      simp only [ptrsH, Option.toList_some, List.mem_append, List.mem_singleton] at hq
      rcases hq with rfl | rfl
      · rw [alloc_snd]; exact extendsFrom_length hce
      · rw [alloc_snd, alloc_fst_length]
        have := extendsFrom_length hce
        omega

theorem incrementPessimisticH_spec (st : Store) (v : VersionH) :
    ∀ out ∈ IncrementPessimisticH st v,
      ExtendsFrom st out.1 ∧ FreshFrom st out.2 := by
  obtain ⟨hce, hcf⟩ := cloneH_spec st v
  intro out hout
  cases hcp : (cloneH st v).2.patch with
  | some q0 =>
    have hq0 : st.cells.length ≤ q0 :=
      hcf q0 (by simp [ptrsH, List.mem_append, hcp])
    cases hcm : (cloneH st v).2.minor with
    | some r =>
      have hr : st.cells.length ≤ r :=
        hcf r (by simp [ptrsH, List.mem_append, hcm])
      simp only [IncrementPessimisticH, hcp, hcm, Option.mem_def,
        Option.some.injEq] at hout
      subst hout
      refine ⟨extendsFrom_write _ (extendsFrom_write _ hce hq0) hr, ?_⟩
      intro q hq
      simp only [ptrsH, hcm, hcp, Option.toList_some, List.mem_append,
        List.mem_singleton] at hq
      rcases hq with rfl | rfl
      · exact hr
      · exact hq0
    | none =>
      simp only [IncrementPessimisticH, hcp, hcm, Option.mem_def] at hout
      exact absurd hout (by simp)
  | none =>
    cases hcm : (cloneH st v).2.minor with
    | some r =>
      simp only [IncrementPessimisticH, hcp, hcm, Option.mem_def,
        Option.some.injEq] at hout
      subst hout
      refine ⟨extendsFrom_alloc _ hce, ?_⟩
      intro q hq
      simp only [ptrsH, hcp, Option.toList_some, Option.toList_none, List.append_nil,
        List.mem_singleton] at hq
      subst hq
      rw [alloc_snd]; exact extendsFrom_length hce
    | none =>
      simp only [IncrementPessimisticH, hcp, hcm, Option.mem_def,
        Option.some.injEq] at hout
      subst hout
      refine ⟨hce, ?_⟩
      intro q hq
      simp only [ptrsH, hcm, hcp, Option.toList_none, List.append_nil,
        List.not_mem_nil] at hq

/-- The observable content of `v` is unchanged by any store extension. -/
theorem obsH_eq_of_extends {st st' : Store} {v : VersionH}
    (hext : ExtendsFrom st st') (hval : ValidH st v) : obsH st' v = obsH st v := by
  have hminor : v.minor.map st'.read = v.minor.map st.read := by
    cases hm : v.minor with
    | none => rfl
    | some p =>
      have hp : p < st.cells.length := hval p (by simp [ptrsH, hm])
      simp only [Option.map_some']
      rw [hext.2 p hp]
  have hpatch : v.patch.map st'.read = v.patch.map st.read := by
    cases hm : v.patch with
    | none => rfl
    | some p =>
      have hp : p < st.cells.length := hval p (by simp [ptrsH, hm, List.mem_append])
      simp only [Option.map_some']
      rw [hext.2 p hp]
  simp [obsH, hminor, hpatch]

/-- Valid pointers of `v` are disjoint from fresh pointers of `r`. -/
theorem notin_of_fresh {st : Store} {v r : VersionH} (hval : ValidH st v)
    (hfresh : FreshFrom st r) : ∀ p ∈ ptrsH v, p ∉ ptrsH r := by
  intro p hp hq
  have h1 := hval p hp
  have h2 := hfresh p hq
  omega

/-- Claim C9: every mutator-like operation, run at the pointer level,
leaves all observable fields of the original version unchanged (its
cells are not written) and returns a version whose optional-component
pointers are disjoint from the original's. -/
theorem claim9_copy_on_write :
    ∀ (st : Store) (v : VersionH) (preRelease buildMetadata : String), ValidH st v →
      (obsH (SetPreReleaseH st v preRelease).1 v = obsH st v
        ∧ ∀ p ∈ ptrsH v, p ∉ ptrsH (SetPreReleaseH st v preRelease).2)
      ∧ (obsH (SetBuildMetadataH st v buildMetadata).1 v = obsH st v
        ∧ ∀ p ∈ ptrsH v, p ∉ ptrsH (SetBuildMetadataH st v buildMetadata).2)
      ∧ (obsH (IncrementH st v).1 v = obsH st v
        ∧ ∀ p ∈ ptrsH v, p ∉ ptrsH (IncrementH st v).2)
      ∧ (obsH (IncrementMajorH st v).1 v = obsH st v
        ∧ ∀ p ∈ ptrsH v, p ∉ ptrsH (IncrementMajorH st v).2)
      ∧ (obsH (IncrementMinorH st v).1 v = obsH st v
        ∧ ∀ p ∈ ptrsH v, p ∉ ptrsH (IncrementMinorH st v).2)
      ∧ (obsH (IncrementPatchH st v).1 v = obsH st v
        ∧ ∀ p ∈ ptrsH v, p ∉ ptrsH (IncrementPatchH st v).2)
      ∧ ∀ out ∈ IncrementPessimisticH st v,
          obsH out.1 v = obsH st v ∧ ∀ p ∈ ptrsH v, p ∉ ptrsH out.2 := by
  intro st v preRelease buildMetadata hval
  refine ⟨⟨?_, ?_⟩, ⟨?_, ?_⟩, ⟨?_, ?_⟩, ⟨?_, ?_⟩, ⟨?_, ?_⟩, ⟨?_, ?_⟩, ?_⟩
  · exact obsH_eq_of_extends (setPreReleaseH_spec st v preRelease).1 hval
  · exact notin_of_fresh hval (setPreReleaseH_spec st v preRelease).2
  · exact obsH_eq_of_extends (setBuildMetadataH_spec st v buildMetadata).1 hval
  · exact notin_of_fresh hval (setBuildMetadataH_spec st v buildMetadata).2
  · exact obsH_eq_of_extends (incrementH_spec st v).1 hval
  · exact notin_of_fresh hval (incrementH_spec st v).2
  · exact obsH_eq_of_extends (incrementMajorH_spec st v).1 hval
  · exact notin_of_fresh hval (incrementMajorH_spec st v).2
  · exact obsH_eq_of_extends (incrementMinorH_spec st v).1 hval
  · exact notin_of_fresh hval (incrementMinorH_spec st v).2
  · exact obsH_eq_of_extends (incrementPatchH_spec st v).1 hval
  · exact notin_of_fresh hval (incrementPatchH_spec st v).2
  · intro out hout
    obtain ⟨hext, hfresh⟩ := incrementPessimisticH_spec st v out hout
    exact ⟨obsH_eq_of_extends hext hval, notin_of_fresh hval hfresh⟩

/-- Claim C9 witness: a concrete store and version. -/
theorem claim9_copy_on_write_witness :
    (obsH (SetPreReleaseH ⟨[5, 7]⟩ ⟨1, some 0, some 1, "a", "b"⟩ "x").1
        ⟨1, some 0, some 1, "a", "b"⟩ = obsH ⟨[5, 7]⟩ ⟨1, some 0, some 1, "a", "b"⟩
      ∧ ∀ p ∈ ptrsH (⟨1, some 0, some 1, "a", "b"⟩ : VersionH),
          p ∉ ptrsH (SetPreReleaseH ⟨[5, 7]⟩ ⟨1, some 0, some 1, "a", "b"⟩ "x").2)
    ∧ (obsH (SetBuildMetadataH ⟨[5, 7]⟩ ⟨1, some 0, some 1, "a", "b"⟩ "y").1
        ⟨1, some 0, some 1, "a", "b"⟩ = obsH ⟨[5, 7]⟩ ⟨1, some 0, some 1, "a", "b"⟩
      ∧ ∀ p ∈ ptrsH (⟨1, some 0, some 1, "a", "b"⟩ : VersionH),
          p ∉ ptrsH (SetBuildMetadataH ⟨[5, 7]⟩ ⟨1, some 0, some 1, "a", "b"⟩ "y").2)
    ∧ (obsH (IncrementH ⟨[5, 7]⟩ ⟨1, some 0, some 1, "a", "b"⟩).1
        ⟨1, some 0, some 1, "a", "b"⟩ = obsH ⟨[5, 7]⟩ ⟨1, some 0, some 1, "a", "b"⟩
      ∧ ∀ p ∈ ptrsH (⟨1, some 0, some 1, "a", "b"⟩ : VersionH),
          p ∉ ptrsH (IncrementH ⟨[5, 7]⟩ ⟨1, some 0, some 1, "a", "b"⟩).2)
    ∧ (obsH (IncrementMajorH ⟨[5, 7]⟩ ⟨1, some 0, some 1, "a", "b"⟩).1
        ⟨1, some 0, some 1, "a", "b"⟩ = obsH ⟨[5, 7]⟩ ⟨1, some 0, some 1, "a", "b"⟩
      ∧ ∀ p ∈ ptrsH (⟨1, some 0, some 1, "a", "b"⟩ : VersionH),
          p ∉ ptrsH (IncrementMajorH ⟨[5, 7]⟩ ⟨1, some 0, some 1, "a", "b"⟩).2)
    ∧ (obsH (IncrementMinorH ⟨[5, 7]⟩ ⟨1, some 0, some 1, "a", "b"⟩).1
        ⟨1, some 0, some 1, "a", "b"⟩ = obsH ⟨[5, 7]⟩ ⟨1, some 0, some 1, "a", "b"⟩
      ∧ ∀ p ∈ ptrsH (⟨1, some 0, some 1, "a", "b"⟩ : VersionH),
          p ∉ ptrsH (IncrementMinorH ⟨[5, 7]⟩ ⟨1, some 0, some 1, "a", "b"⟩).2)
    ∧ (obsH (IncrementPatchH ⟨[5, 7]⟩ ⟨1, some 0, some 1, "a", "b"⟩).1
        ⟨1, some 0, some 1, "a", "b"⟩ = obsH ⟨[5, 7]⟩ ⟨1, some 0, some 1, "a", "b"⟩
      ∧ ∀ p ∈ ptrsH (⟨1, some 0, some 1, "a", "b"⟩ : VersionH),
          p ∉ ptrsH (IncrementPatchH ⟨[5, 7]⟩ ⟨1, some 0, some 1, "a", "b"⟩).2)
    ∧ ∀ out ∈ IncrementPessimisticH ⟨[5, 7]⟩ ⟨1, some 0, some 1, "a", "b"⟩,
        obsH out.1 ⟨1, some 0, some 1, "a", "b"⟩ =
          obsH ⟨[5, 7]⟩ ⟨1, some 0, some 1, "a", "b"⟩
        ∧ ∀ p ∈ ptrsH (⟨1, some 0, some 1, "a", "b"⟩ : VersionH), p ∉ ptrsH out.2 :=
  claim9_copy_on_write ⟨[5, 7]⟩ ⟨1, some 0, some 1, "a", "b"⟩ "x" "y"
    (by intro p hp; simp [ptrsH] at hp; rcases hp with rfl | rfl <;> decide)

/-- Claim C7: for all versions `a`, `b`, exactly one of `Less`, `Equal`,
`Greater` holds, where `Equal` and `Greater` are derived from `Less`
alone as in the source. -/
theorem claim7_trichotomy :
    ∀ a b : Version,
      (a.Less b = true ∨ a.Equal b = true ∨ a.Greater b = true)
      ∧ ¬(a.Less b = true ∧ a.Equal b = true)
      ∧ ¬(a.Less b = true ∧ a.Greater b = true)
      ∧ ¬(a.Equal b = true ∧ a.Greater b = true)
      ∧ a.Equal b = (!(a.Less b) && !(b.Less a))
      ∧ a.Greater b = (b.Less a && !(a.Less b)) := by
  intro a b
  refine ⟨?_, ?_, ?_, ?_, rfl, rfl⟩ <;>
    simp only [Version.Equal, Version.Greater] <;>
    cases h1 : a.Less b <;> cases h2 : b.Less a <;> simp

end Verlib

